import Mathlib

/-!
Shallow embedding of `src/selection.rs` (the molly selection subsystem).

Machine integers (`u32`, `u64`, `usize`) are embedded as `Nat`: the code performs
no additions or multiplications that could wrap, and its only subtractions are
either saturating (`saturating_sub`, which coincides with truncated `Nat`
subtraction) or guarded so that the result stays within the operands' range, so
the `Nat` semantics agrees with the machine semantics on all representable
values.  `NonZeroU64` is embedded as the subtype of positive naturals.
-/

/-- Embedding of `std::num::NonZeroU64`: a positive natural.  `.get` mirrors
`NonZeroU64::get`. -/
abbrev NonZeroU64 : Type := {n : Nat // 0 < n}

def NonZeroU64.get (n : NonZeroU64) : Nat := n.val

/-- `AtomSelection` from `selection.rs`: include all atoms, a boolean mask of
positions, or an exclusive stop value `until`. -/
inductive AtomSelection where
  | All : AtomSelection
  | Mask (mask : List Bool) : AtomSelection
  | Until («until» : Nat) : AtomSelection
deriving DecidableEq

/-- `AtomSelection::from_index_list`: find the maximum index (empty input gives
an empty mask), allocate `max + 1` entries initialised to `false`
(`mask.resize(max, false)` on a fresh vector), then set every listed index to
`true` (the loop `for &idx in indices { mask[idx] = true }`, embedded as a
fold over `List.set`; every listed index is `≤ max`, so each `set` is in
bounds exactly as in the source). -/
def AtomSelection.from_index_list (indices : List Nat) : AtomSelection :=
  match indices.max? with
  | none => AtomSelection.Mask []
  | some max =>
      AtomSelection.Mask
        (indices.foldl (fun mask idx => mask.set idx true) (List.replicate (max + 1) false))

/-- `AtomSelection::is_included`. `mask.get(idx).copied()` is `mask[idx]?`. -/
def AtomSelection.is_included (s : AtomSelection) (idx : Nat) : Option Bool :=
  match s with
  | .All => some true
  | .Mask mask => mask[idx]?
  | .Until «until» => if idx ≤ «until» then some true else none

/-- `Iterator::rposition(|&entry| entry)` on a boolean sequence: the index of
the last `true` entry, if any. -/
def rpositionTrue : List Bool → Option Nat
  | [] => none
  | entry :: rest =>
      match rpositionTrue rest with
      | some n => some (n + 1)
      | none => if entry then some 0 else none

/-- `AtomSelection::last`. -/
def AtomSelection.last (s : AtomSelection) : Option Nat :=
  match s with
  | .All => none
  | .Mask mask =>
      match rpositionTrue mask with
      | some n => some (n + 1)
      | none => some 0
  | .Until «until» => some «until»

/-- `AtomSelection::natoms_selected`. -/
def AtomSelection.natoms_selected (s : AtomSelection) (frame_natoms : Nat) : Nat :=
  match s with
  | .All => frame_natoms
  | .Mask mask => ((mask.take frame_natoms).filter (fun b => b)).length
  | .Until «until» => Nat.min «until» frame_natoms

/-- `AtomSelection::reading_limit`. -/
def AtomSelection.reading_limit (s : AtomSelection) (frame_natoms : Nat) : Nat :=
  (s.last.map fun n => Nat.min n frame_natoms).getD frame_natoms

/-- `Range` from `selection.rs`: a strided half-open interval with inclusive
`start`, optional exclusive `end` and positive `step`. -/
structure Range where
  start : Nat
  «end» : Option Nat
  step : NonZeroU64

/-- `impl Default for Range`. -/
def Range.default : Range :=
  { start := 0, «end» := none, step := ⟨1, Nat.one_pos⟩ }

/-- `Range::new` in release mode: the `debug_assert!(start <= end)` is compiled
out, so construction is total and stores the fields verbatim, defaulting
omitted `start` to 0 and omitted `step` to 1. -/
def Range.new (start : Option Nat) («end» : Option Nat) (step : Option NonZeroU64) : Range :=
  let sel : Range := { Range.default with «end» := «end» }
  let sel : Range := match start with
    | some start => { sel with start := start }
    | none => sel
  let sel : Range := match step with
    | some step => { sel with step := step }
    | none => sel
  sel

/-- `Range::is_included`.  `idx.saturating_sub(self.start)` is truncated `Nat`
subtraction. -/
def Range.is_included (r : Range) (idx : Nat) : Option Bool :=
  if (match r.«end» with | some e => decide (e ≤ idx) | none => false) then
    none
  else
    let in_range := decide (r.start ≤ idx)
    let in_step := (r.step.get == 1) || ((idx - r.start) % r.step.get == 0)
    some (in_range && in_step)

/-- `Range::last`.  `end.saturating_sub(self.start)` is truncated `Nat`
subtraction; `end - remainder` cannot underflow since
`remainder ≤ length ≤ end`. -/
def Range.last (r : Range) : Option Nat :=
  r.«end».map fun e =>
    let length := e - r.start
    let remainder := length % r.step.get
    e - remainder

/-- `FrameSelection` from `selection.rs`.  The `BTreeSet<usize>` payload of
`FrameList` is embedded as a `Finset Nat`: a finite set of unique indices whose
`last`/`max` operations are the set maximum. -/
inductive FrameSelection where
  | All : FrameSelection
  | Range (range : Range) : FrameSelection
  | FrameList (indices : Finset Nat) : FrameSelection

/-- `FrameSelection::framelist_from_iter`: collect an iterator into the set
(deduplicating). -/
def FrameSelection.framelist_from_iter (iter : List Nat) : FrameSelection :=
  FrameSelection.FrameList iter.toFinset

/-- `FrameSelection::is_included`.  `indices.last()?` is the set maximum,
propagating `None` for the empty set. -/
def FrameSelection.is_included (s : FrameSelection) (idx : Nat) : Option Bool :=
  match s with
  | .All => some true
  | .Range range => range.is_included idx
  | .FrameList indices =>
      if h : indices.Nonempty then
        if indices.max' h < idx then none else some (decide (idx ∈ indices))
      else none

/-- `FrameSelection::until`.  The `+ 1` is `usize` addition on a 64-bit
target, which wraps at `2 ^ 64` in a release build (`last = usize::MAX`
wraps the bound to `0`).  For `FrameList`,
`list.iter().max().copied().unwrap_or_default() + 1` defaults the maximum of
an empty set to `0`. -/
def FrameSelection.until (s : FrameSelection) : Option Nat :=
  match s with
  | .All => none
  | .Range range => range.last.map (fun last => (last + 1) % 2 ^ 64)
  | .FrameList list => some (((if h : list.Nonempty then list.max' h else 0) + 1) % 2 ^ 64)

/-- The bounds the program's integer types impose on a `FrameSelection`'s
payload: a `Range` holds `u64` fields, and a `FrameList` holds `usize`
(64-bit) indices. -/
def FrameSelection.Representable : FrameSelection → Prop
  | .All => True
  | .Range r => r.start < 2 ^ 64 ∧ (∀ e, r.«end» = some e → e < 2 ^ 64) ∧ r.step.get < 2 ^ 64
  | .FrameList indices => ∀ i ∈ indices, i < 2 ^ 64

/-- The mask of the `non_continuous_mask` test and of the spec's
"Mask scan/selection split" property. -/
def nonContinuousMask : List Bool :=
  [true, true, true, false, false, false, true, false, false, true, false]

/-- Every 15th index of `[0, 100)`, as built by `(0..100).step_by(15)`. -/
def step15 : List Nat := (List.range 100).filter (fun i => i % 15 == 0)

/-- Unfolding the fields of `Range::new`. -/
theorem Range.new_fields (start : Option Nat) («end» : Option Nat) (step : Option NonZeroU64) :
    (Range.new start «end» step).start = start.getD 0 ∧
    (Range.new start «end» step).«end» = «end» ∧
    (Range.new start «end» step).step = step.getD ⟨1, Nat.one_pos⟩ := by
  cases start <;> cases step <;> simp [Range.new, Range.default]

/-- The boolean disjunction of two `Nat` equality tests is the decision of the
disjunction. -/
theorem beq_or_decide (a b c d : Nat) :
    ((a == b) || (c == d)) = decide (a = b ∨ c = d) := by
  by_cases h1 : a = b <;> by_cases h2 : c = d <;> simp [h1, h2]

/-- A multiple of `st` strictly below `L` is at most `L` rounded down to a
multiple of `st`. -/
theorem stride_le_sub_mod {st L d : Nat} (hst : 0 < st) (hd : d % st = 0) (hlt : d < L) :
    d ≤ L - L % st := by
  obtain ⟨k, hk⟩ := Nat.dvd_of_mod_eq_zero hd
  have hk2 : k ≤ L / st := by
    rw [Nat.le_div_iff_mul_le hst, Nat.mul_comm, ← hk]
    exact Nat.le_of_lt hlt
  calc d = st * k := hk
    _ ≤ st * (L / st) := Nat.mul_le_mul_left st hk2
    _ = L - L % st := Nat.eq_sub_of_add_eq (Nat.div_add_mod L st)

/-- C1: for every `Range` `r` and index `idx`, if `r.end = some e` and
`idx ≥ e` then `r.is_included idx = none`; otherwise it is
`some (in_range && in_step)` with `in_range = (r.start ≤ idx)` and `in_step`
true exactly when `r.step = 1` or `(idx - r.start) % r.step = 0` under
saturating subtraction; in particular `idx < r.start` never yields
`some true`. -/
theorem range_is_included_spec (r : Range) (idx : Nat) :
    (∀ e, r.«end» = some e → e ≤ idx → r.is_included idx = none) ∧
    ((∀ e, r.«end» = some e → idx < e) →
      r.is_included idx =
        some (decide (r.start ≤ idx) &&
          decide (r.step.get = 1 ∨ (idx - r.start) % r.step.get = 0))) ∧
    (idx < r.start → r.is_included idx ≠ some true) := by
  refine ⟨fun e he hle => by simp [Range.is_included, he, hle], ?_, ?_⟩
  · intro h
    rw [Range.is_included, beq_or_decide]
    cases he : r.«end» with
    | none => simp
    | some e => simp [Nat.not_le.mpr (h e he)]
  · intro hlt
    have hs : decide (r.start ≤ idx) = false := by simp [Nat.not_le.mpr hlt]
    rw [Range.is_included]
    cases he : r.«end» with
    | none => simp [hs]
    | some e =>
      by_cases hle : e ≤ idx <;> simp [hle, hs]

/-- C1 witness: concrete instances of both branches. -/
theorem range_is_included_spec_witness :
    (Range.new (some 2) (some 5) none).is_included 7 = none ∧
    (Range.new (some 2) (some 5) none).is_included 4 =
      some (decide (2 ≤ 4) && decide ((1 : Nat) = 1 ∨ (4 - 2) % 1 = 0)) :=
  ⟨(range_is_included_spec (Range.new (some 2) (some 5) none) 7).1 5 rfl (by decide),
   (range_is_included_spec (Range.new (some 2) (some 5) none) 4).2.1
     (fun e he => by cases he; decide)⟩

/-- C7: `Until c` answers `some true` exactly on `idx ≤ c`, `none` exactly on
`idx > c`, and never `some false`. -/
theorem until_is_included_spec (c idx : Nat) :
    ((AtomSelection.Until c).is_included idx = some true ↔ idx ≤ c) ∧
    ((AtomSelection.Until c).is_included idx = none ↔ c < idx) ∧
    (AtomSelection.Until c).is_included idx ≠ some false := by
  by_cases h : idx ≤ c <;> simp [AtomSelection.is_included, h] <;> omega

/-- C7 witness: concrete instance at `c = 5`, `idx = 5`. -/
theorem until_is_included_spec_witness :
    (AtomSelection.Until 5).is_included 5 = some true ↔ 5 ≤ 5 :=
  (until_is_included_spec 5 5).1

/-- C8: a `Range` built (in release mode) with `start > end` matches no index:
queries beyond `end` answer `none`, queries below `end` answer `some false`,
and no query answers `some true`. -/
theorem range_inverted_zero_matches (s e : Nat) (step : Option NonZeroU64) (idx : Nat)
    (h : e < s) :
    ((Range.new (some s) (some e) step).is_included idx ≠ some true) ∧
    (e ≤ idx → (Range.new (some s) (some e) step).is_included idx = none) ∧
    (idx < e → (Range.new (some s) (some e) step).is_included idx = some false) := by
  obtain ⟨hstart, hend, -⟩ := Range.new_fields (some s) (some e) step
  rw [Range.is_included, hstart, hend]
  by_cases hle : e ≤ idx
  · simp [hle]
  · have hs : ¬ s ≤ idx := by omega
    simp [hle, hs]

/-- C8 witness: `start = 5`, `end = 2`. -/
theorem range_inverted_zero_matches_witness :
    (2 ≤ 3 → (Range.new (some 5) (some 2) none).is_included 3 = none) ∧
    (1 < 2 → (Range.new (some 5) (some 2) none).is_included 1 = some false) :=
  ⟨(range_inverted_zero_matches 5 2 none 3 (by decide)).2.1,
   (range_inverted_zero_matches 5 2 none 1 (by decide)).2.2⟩

/-- C9: `Range::is_included` and `Range::last` are total under the saturating
subtractions: `is_included` agrees with a guarded computation that never
subtracts when `idx < start` (answering `some false` directly), `last` always
returns a value at most `end`, and even an invariant-violating `start > end`
yields the degenerate value `some end` instead of trapping. -/
theorem range_saturating_total (r : Range) (idx : Nat) :
    (r.is_included idx =
      if (match r.«end» with | some e => decide (e ≤ idx) | none => false) then none
      else if r.start ≤ idx then
        some ((r.step.get == 1) || ((idx - r.start) % r.step.get == 0))
      else some false) ∧
    (∀ e, r.«end» = some e → ∃ l, r.last = some l ∧ l ≤ e) ∧
    (∀ e, r.«end» = some e → e < r.start → r.last = some e) := by
  refine ⟨?_, ?_, ?_⟩
  · rw [Range.is_included]
    by_cases hg : (match r.«end» with | some e => decide (e ≤ idx) | none => false) = true
    · simp [hg]
    · by_cases hs : r.start ≤ idx <;> simp [hg, hs]
  · intro e he
    refine ⟨e - (e - r.start) % r.step.get, ?_, Nat.sub_le _ _⟩
    simp [Range.last, he]
  · intro e he hlt
    have hz : e - r.start = 0 := Nat.sub_eq_zero_of_le (Nat.le_of_lt hlt)
    simp [Range.last, he, hz]

/-- C9 witness: an invariant-violating range (`start = 5 > end = 2`) still
answers totally: `last = some 2`. -/
theorem range_saturating_total_witness :
    (Range.new (some 5) (some 2) none).last = some 2 :=
  (range_saturating_total (Range.new (some 5) (some 2) none) 0).2.2 2 rfl (by decide)

/-- A sequence without a `true` entry has no `true` entries to count. -/
theorem rpositionTrue_none (m : List Bool) :
    rpositionTrue m = none → (m.filter (fun b => b)).length = 0 := by
  induction m with
  | nil => intro _; rfl
  | cons b rest ih =>
    intro h
    rw [rpositionTrue] at h
    cases hr : rpositionTrue rest with
    | some n => rw [hr] at h; simp at h
    | none =>
      rw [hr] at h
      cases b
      · simpa using ih hr
      · simp at h

/-- The `true` entries of a boolean sequence all lie at or before the position
of the last `true` entry, so their number is bounded by that position plus
one. -/
theorem rpositionTrue_some (m : List Bool) (k : Nat) :
    rpositionTrue m = some k → (m.filter (fun b => b)).length ≤ k + 1 := by
  induction m generalizing k with
  | nil => intro h; simp [rpositionTrue] at h
  | cons b rest ih =>
    intro h
    rw [rpositionTrue] at h
    cases hr : rpositionTrue rest with
    | some n =>
      rw [hr] at h
      simp at h
      have := ih n hr
      cases b <;> simp [List.filter_cons] <;> omega
    | none =>
      rw [hr] at h
      have hz := rpositionTrue_none rest hr
      cases b
      · simp at h
      · simp at h
        simp [List.filter_cons, hz]

/-- Filtering a prefix yields at most as many entries as filtering the whole
sequence. -/
theorem length_filter_take_le (m : List Bool) (n : Nat) (p : Bool → Bool) :
    ((m.take n).filter p).length ≤ (m.filter p).length :=
  ((m.take_sublist n).filter p).length_le

/-- C5: `natoms_selected` never exceeds `frame_natoms`; `All` yields
`frame_natoms`, `Mask` the number of `true` entries among the first
`frame_natoms` positions, and `Until c` yields `min c frame_natoms`. -/
theorem natoms_selected_spec (a : AtomSelection) (n : Nat) :
    a.natoms_selected n ≤ n ∧
    AtomSelection.All.natoms_selected n = n ∧
    (∀ m, (AtomSelection.Mask m).natoms_selected n = (m.take n).count true) ∧
    (∀ c, (AtomSelection.Until c).natoms_selected n = Nat.min c n) := by
  refine ⟨?_, rfl, ?_, fun c => rfl⟩
  · cases a with
    | All => exact Nat.le_refl n
    | Mask mask =>
      calc (AtomSelection.Mask mask).natoms_selected n
          ≤ (mask.take n).length := List.length_filter_le _ _
        _ ≤ n := mask.length_take_le n
    | Until c => exact Nat.min_le_right c n
  · intro m
    rw [List.count, List.countP_eq_length_filter]
    cases n <;> simp [AtomSelection.natoms_selected]

/-- C5 witness: concrete instance on a three-entry mask. -/
theorem natoms_selected_spec_witness :
    (AtomSelection.Mask [true, false, true]).natoms_selected 2 ≤ 2 :=
  (natoms_selected_spec (AtomSelection.Mask [true, false, true]) 2).1

/-- C3: `reading_limit` is `min last frame_natoms` when `last` is `some`, and
`frame_natoms` when `last` is `none`; it dominates `natoms_selected` for every
variant and coincides with it for `All` and `Until`; on the mask
`[T,T,T,F,F,F,T,F,F,T,F]` with `frame_natoms = 100` the two notions split as
5 selected versus 10 to read. -/
theorem reading_limit_spec :
    (∀ (a : AtomSelection) (n : Nat),
      (∀ l, a.last = some l → a.reading_limit n = Nat.min l n) ∧
      (a.last = none → a.reading_limit n = n) ∧
      a.natoms_selected n ≤ a.reading_limit n ∧
      ((a = AtomSelection.All ∨ ∃ u, a = AtomSelection.Until u) →
        a.reading_limit n = a.natoms_selected n)) ∧
    (AtomSelection.Mask nonContinuousMask).natoms_selected 100 = 5 ∧
    (AtomSelection.Mask nonContinuousMask).reading_limit 100 = 10 := by
  refine ⟨fun a n => ⟨?_, ?_, ?_, ?_⟩, by decide, by decide⟩
  · intro l hl
    simp [AtomSelection.reading_limit, hl]
  · intro hl
    simp [AtomSelection.reading_limit, hl]
  · cases a with
    | All => simp [AtomSelection.reading_limit, AtomSelection.last, AtomSelection.natoms_selected]
    | Until c =>
      simp [AtomSelection.reading_limit, AtomSelection.last, AtomSelection.natoms_selected]
    | Mask mask =>
      have h1 : ((mask.take n).filter (fun b => b)).length ≤ n := by
        calc ((mask.take n).filter (fun b => b)).length
            ≤ (mask.take n).length := List.length_filter_le _ _
          _ ≤ n := mask.length_take_le n
      rw [AtomSelection.reading_limit]
      cases hr : rpositionTrue mask with
      | some k =>
        have h2 : ((mask.take n).filter (fun b => b)).length ≤ k + 1 :=
          Nat.le_trans (length_filter_take_le mask n _) (rpositionTrue_some mask k hr)
        simp only [AtomSelection.last, AtomSelection.natoms_selected, hr]
        simpa using Nat.le_min.mpr ⟨h2, h1⟩
      | none =>
        have h2 : ((mask.take n).filter (fun b => b)).length ≤ 0 :=
          Nat.le_trans (length_filter_take_le mask n _)
            (Nat.le_of_eq (rpositionTrue_none mask hr))
        simp only [AtomSelection.last, AtomSelection.natoms_selected, hr]
        simpa using Nat.le_min.mpr ⟨h2, h1⟩
  · rintro (rfl | ⟨u, rfl⟩) <;>
      simp [AtomSelection.reading_limit, AtomSelection.last, AtomSelection.natoms_selected]

/-- C3 witness: concrete instance for the `Until` variant. -/
theorem reading_limit_spec_witness :
    (AtomSelection.Until 3).reading_limit 10 = Nat.min 3 10 :=
  (reading_limit_spec.1 (AtomSelection.Until 3) 10).1 3 rfl

/-- C10: for `0 < c < n`, `Until c` sizes itself as `c` atoms
(`natoms_selected` and `reading_limit` both answer `c`) yet `is_included`
answers `some true` for the `c + 1` indices `0, ..., c`: within the `n` frame
positions, `c + 1` indices report as included. -/
theorem until_off_by_one (c n : Nat) (_hc : 0 < c) (hn : c < n) :
    (AtomSelection.Until c).natoms_selected n = c ∧
    (AtomSelection.Until c).reading_limit n = c ∧
    (∀ idx, (AtomSelection.Until c).is_included idx = some true ↔ idx ≤ c) ∧
    ((Finset.range n).filter
      (fun idx => (AtomSelection.Until c).is_included idx = some true)).card = c + 1 := by
  have hinc : ∀ idx, (AtomSelection.Until c).is_included idx = some true ↔ idx ≤ c := by
    intro idx
    by_cases h : idx ≤ c <;> simp [AtomSelection.is_included, h]
  refine ⟨?_, ?_, hinc, ?_⟩
  · simp [AtomSelection.natoms_selected]
    omega
  · simp [AtomSelection.reading_limit, AtomSelection.last]
    omega
  · have : ((Finset.range n).filter
        (fun idx => (AtomSelection.Until c).is_included idx = some true)) =
        Finset.range (c + 1) := by
      ext i
      simp only [Finset.mem_filter, Finset.mem_range, hinc]
      omega
    rw [this, Finset.card_range]

/-- C10 witness: `c = 2`, `n = 5` reports 3 included indices against a size
of 2. -/
theorem until_off_by_one_witness :
    ((Finset.range 5).filter
      (fun idx => (AtomSelection.Until 2).is_included idx = some true)).card = 2 + 1 :=
  (until_off_by_one 2 5 (by decide) (by decide)).2.2.2

/-- C4 counterexample: with `start = 0`, `end = 100`, `step = 1`, the stride
lands exactly on `end`, and `Range::last` answers `some 100` — `100` is not
strictly less than `end = 100`, and the greatest progression index strictly
below `end`, namely `99`, is not returned. -/
theorem range_last_at_end :
    (Range.new none (some 100) none).last = some 100 ∧
    ¬ (100 < 100) ∧
    (Range.new none (some 100) none).last ≠ some 99 := by decide

/-- C4 amended: for `r.end = some e`, `Range::last` answers
`e - ((e - r.start) % r.step)` (saturating subtraction); whenever
`r.start ≤ e` and the stride does not land exactly on `e` (the remainder is
nonzero), this value is the greatest index strictly less than `e` lying on
the arithmetic progression `r.start, r.start + r.step, ...`. -/
theorem range_last_spec (r : Range) (e : Nat) (he : r.«end» = some e) :
    r.last = some (e - (e - r.start) % r.step.get) ∧
    (r.start ≤ e → (e - r.start) % r.step.get ≠ 0 →
      r.start ≤ e - (e - r.start) % r.step.get ∧
      (e - (e - r.start) % r.step.get - r.start) % r.step.get = 0 ∧
      e - (e - r.start) % r.step.get < e ∧
      ∀ i, r.start ≤ i → (i - r.start) % r.step.get = 0 → i < e →
        i ≤ e - (e - r.start) % r.step.get) := by
  have hst : 0 < r.step.get := r.step.property
  constructor
  · simp [Range.last, he]
  · intro hse hrem
    have hdm := Nat.div_add_mod (e - r.start) r.step.get
    have hmodle : (e - r.start) % r.step.get ≤ e - r.start := Nat.mod_le _ _
    have hkey : e - (e - r.start) % r.step.get - r.start
        = r.step.get * ((e - r.start) / r.step.get) := by omega
    refine ⟨by omega, by rw [hkey]; exact Nat.mul_mod_right _ _, by omega, ?_⟩
    intro i hsi hmod hie
    have hd : i - r.start ≤ (e - r.start) - (e - r.start) % r.step.get :=
      stride_le_sub_mod hst hmod (by omega)
    omega

/-- C4 witness: `start = 2`, `end = 7`, `step = 3`: `last = some 5`, and `5`
is on the progression, below `end`, and dominates the on-progression index
`2 < 7`. -/
theorem range_last_spec_witness :
    (Range.new (some 2) (some 7) (some ⟨3, Nat.succ_pos 2⟩)).last = some 5 ∧
    2 ≤ 5 ∧ (5 - 2) % 3 = 0 ∧ 5 < 7 :=
  have h := range_last_spec (Range.new (some 2) (some 7) (some ⟨3, Nat.succ_pos 2⟩)) 7 rfl
  have h2 := h.2 (by decide) (by decide)
  ⟨h.1, h2.1, h2.2.1, h2.2.2.1⟩

/-- C2 counterexample: `Range::new(None, Some(100), None)` (the code's own
`until` test) has `until() = some 101`, yet the frame immediately before that
bound, index `100`, is not selected: `is_included 100 = none`, not
`some true`. -/
theorem until_pred_not_included :
    (FrameSelection.Range (Range.new none (some 100) none)).until = some 101 ∧
    (FrameSelection.Range (Range.new none (some 100) none)).is_included (101 - 1)
      ≠ some true := by decide

/-- C2 amended: over the program's 64-bit values, `until` is an exclusive
upper bound on the selected frames whenever its `usize` increment did not
wrap: if `s.until = some u` with `u ≠ 0`, no index `≥ u` answers
`some true`.  The bound wraps exactly at `last = usize::MAX`: with
`end = u64::MAX`, `until` answers `some 0` although index `0` is selected.
The frame immediately before `u` need not be selected (see the
counterexample); on the spec's two stride examples it is:
`Range::new(None, Some(100), Some(17))` has `until = 86` with index `85`
selected, and `Range::new(Some(33), Some(100), Some(17))` has `until = 85`
with index `84` selected. -/
theorem until_exclusive_bound :
    (∀ (s : FrameSelection) (u : Nat), s.Representable → s.until = some u → u ≠ 0 →
      ∀ idx, u ≤ idx → s.is_included idx ≠ some true) ∧
    (FrameSelection.Range (Range.new none (some (2 ^ 64 - 1)) none)).until = some 0 ∧
    (FrameSelection.Range (Range.new none (some (2 ^ 64 - 1)) none)).is_included 0
      = some true ∧
    (FrameSelection.Range (Range.new none (some 100) (some ⟨17, Nat.succ_pos 16⟩))).until
      = some 86 ∧
    (FrameSelection.Range (Range.new none (some 100) (some ⟨17, Nat.succ_pos 16⟩))).is_included 85
      = some true ∧
    (FrameSelection.Range (Range.new (some 33) (some 100) (some ⟨17, Nat.succ_pos 16⟩))).until
      = some 85 ∧
    (FrameSelection.Range
      (Range.new (some 33) (some 100) (some ⟨17, Nat.succ_pos 16⟩))).is_included 84
      = some true := by
  refine ⟨?_, by decide, by decide, by decide, by decide, by decide, by decide⟩
  intro s u hrep hu hu0 idx hle hinc
  cases s with
  | All => simp [FrameSelection.until] at hu
  | FrameList indices =>
    have hreps : ∀ i ∈ indices, i < 2 ^ 64 := hrep
    rw [FrameSelection.until] at hu
    rw [FrameSelection.is_included] at hinc
    by_cases h : indices.Nonempty
    · rw [dif_pos h] at hu hinc
      have hmaxlt : indices.max' h < 2 ^ 64 := hreps _ (indices.max'_mem h)
      have hu' : (indices.max' h + 1) % 2 ^ 64 = u := by simpa using hu
      have h64 : (2 : Nat) ^ 64 = 18446744073709551616 := by norm_num
      have hmax : indices.max' h + 1 = u := by
        rw [h64] at hu' hmaxlt
        omega
      have hlt : indices.max' h < idx := by omega
      rw [if_pos hlt] at hinc
      simp at hinc
    · rw [dif_neg h] at hinc
      simp at hinc
  | Range r =>
    have hreps : r.start < 2 ^ 64 ∧ (∀ e, r.«end» = some e → e < 2 ^ 64) ∧
        r.step.get < 2 ^ 64 := hrep
    rw [FrameSelection.until] at hu
    rw [FrameSelection.is_included] at hinc
    cases he : r.«end» with
    | none => rw [Range.last, he] at hu; simp at hu
    | some e =>
      have hst : 0 < r.step.get := r.step.property
      have hrepE : e < 2 ^ 64 := hreps.2.1 e he
      have hlast : r.last = some (e - (e - r.start) % r.step.get) := by
        simp [Range.last, he]
      rw [hlast] at hu
      simp at hu
      have hsub : e - (e - r.start) % r.step.get ≤ e := Nat.sub_le _ _
      have h64 : (2 : Nat) ^ 64 = 18446744073709551616 := by norm_num
      rw [h64] at hrepE
      have hu2 : e - (e - r.start) % r.step.get + 1 = u := by omega
      by_cases hei : e ≤ idx
      · simp [Range.is_included, he, hei] at hinc
      · simp [Range.is_included, he, hei] at hinc
        obtain ⟨hsi, hstep⟩ := hinc
        have hmod : (idx - r.start) % r.step.get = 0 := by
          rcases hstep with h1 | h2
          · rw [h1]
            exact Nat.mod_one _
          · exact h2
        have hd : idx - r.start ≤ (e - r.start) - (e - r.start) % r.step.get :=
          stride_le_sub_mod hst hmod (by omega)
        have hmodle : (e - r.start) % r.step.get ≤ e - r.start := Nat.mod_le _ _
        omega

/-- C2 witness: the frame list `{0}` (representable, with unwrapped bound
`until = some 1`) does not report index `5` as selected. -/
theorem until_exclusive_bound_witness :
    (FrameSelection.FrameList {0}).is_included 5 ≠ some true :=
  until_exclusive_bound.1 (FrameSelection.FrameList {0}) 1
    (by
      show ∀ i ∈ ({0} : Finset Nat), i < 2 ^ 64
      intro i hi
      rw [Finset.mem_singleton] at hi
      subst hi
      norm_num)
    (by decide) (by decide) 5 (by decide)

/-- Effect of the mask-filling loop of `from_index_list` on lookups: an index
is read back as `true` exactly when it was listed and lies within the mask;
all other positions are left as the initial mask had them. -/
theorem getElem?_foldl_set (xs : List Nat) (m : List Bool) (j : Nat) :
    (xs.foldl (fun mask idx => mask.set idx true) m)[j]? =
      if j ∈ xs ∧ j < m.length then some true else m[j]? := by
  induction xs generalizing m with
  | nil => simp
  | cons i rest ih =>
    rw [List.foldl_cons, ih, List.length_set]
    by_cases hij : i = j
    · subst hij
      by_cases hlen : i < m.length
      · by_cases hj : i ∈ rest
        · simp [hj, hlen]
        · simp [hj, hlen, List.getElem?_set_self hlen]
      · have hnone : m[i]? = none := List.getElem?_eq_none (Nat.le_of_not_lt hlen)
        have hnone2 : (m.set i true)[i]? = none := by
          rw [List.getElem?_set]
          simp [hlen]
        simp [hlen, hnone, hnone2]
    · have hset : (m.set i true)[j]? = m[j]? := List.getElem?_set_ne hij
      by_cases hj : j ∈ rest
      · by_cases hlen : j < m.length
        · simp [hj, hlen]
        · simp [hj, hlen, hset]
      · have hmem : j ∉ i :: rest := by
          simp only [List.mem_cons, not_or]
          exact ⟨fun h => hij h.symm, hj⟩
        simp [hj, hset, hmem]

/-- Pointwise description of the mask built by `from_index_list` from a
nonempty index list with maximum `M`. -/
theorem from_index_list_is_included (xs : List Nat) (M : Nat) (hM : xs.max? = some M)
    (i : Nat) :
    (AtomSelection.from_index_list xs).is_included i =
      if i ≤ M then some (decide (i ∈ xs)) else none := by
  have hmem : ∀ b ∈ xs, b ≤ M := (List.max?_eq_some_iff'.mp hM).2
  simp only [AtomSelection.from_index_list, hM, AtomSelection.is_included]
  rw [getElem?_foldl_set, List.length_replicate]
  by_cases hi : i ∈ xs
  · have hiM : i ≤ M := hmem i hi
    simp [hi, hiM, Nat.lt_succ_of_le hiM]
  · simp only [hi, false_and, if_false, List.getElem?_replicate, Nat.lt_succ_iff]
    by_cases hiM : i ≤ M <;> simp [hi, hiM]

set_option maxRecDepth 16000 in
/-- C6: `from_index_list` of the empty list is the empty mask; otherwise the
result is a mask answering `some (i ∈ xs)` for every `i ≤ max xs` and `none`
beyond; on every 15th index of `[0, 100)` it selects exactly the multiples of
15 up to 90, with `natoms_selected 100 = 7` and `reading_limit 100 = 91`. -/
theorem from_index_list_spec :
    AtomSelection.from_index_list [] = AtomSelection.Mask [] ∧
    (∀ (xs : List Nat) (M : Nat), xs.max? = some M →
      (∀ i, i ≤ M →
        (AtomSelection.from_index_list xs).is_included i = some (decide (i ∈ xs))) ∧
      (∀ i, M < i → (AtomSelection.from_index_list xs).is_included i = none)) ∧
    (∀ i, i < 91 →
      (AtomSelection.from_index_list step15).is_included i = some (decide (i % 15 = 0))) ∧
    (∀ i, 90 < i → (AtomSelection.from_index_list step15).is_included i = none) ∧
    (AtomSelection.from_index_list step15).natoms_selected 100 = 7 ∧
    (AtomSelection.from_index_list step15).reading_limit 100 = 91 := by
  have hgen : ∀ (xs : List Nat) (M : Nat), xs.max? = some M →
      (∀ i, i ≤ M →
        (AtomSelection.from_index_list xs).is_included i = some (decide (i ∈ xs))) ∧
      (∀ i, M < i → (AtomSelection.from_index_list xs).is_included i = none) := by
    intro xs M hM
    constructor
    · intro i hi
      rw [from_index_list_is_included xs M hM i, if_pos hi]
    · intro i hi
      rw [from_index_list_is_included xs M hM i, if_neg (by omega)]
  refine ⟨rfl, hgen, by decide, ?_, by decide, by decide⟩
  intro i hi
  exact (hgen step15 90 (by decide)).2 i hi

/-- C6 witness: the list `[3, 1]` yields a mask including `1`, excluding `2`,
and out of scope at `4`. -/
theorem from_index_list_spec_witness :
    (AtomSelection.from_index_list [3, 1]).is_included 1 = some true ∧
    (AtomSelection.from_index_list [3, 1]).is_included 4 = none :=
  ⟨(from_index_list_spec.2.1 [3, 1] 3 (by decide)).1 1 (by decide),
   (from_index_list_spec.2.1 [3, 1] 3 (by decide)).2 4 (by decide)⟩

